import Mathlib

/-!
Verification of SpaceForm-Tech/SFAI-Cap3D-Download against its specification.

The development shallowly embeds the three core components of the repository:

* `download_file_with_retry` (src/download.py): the resumable, retrying
  chunked downloader.  Network responses are modelled by `SResp`; the
  destination file is a `List Nat` of bytes; every attempt is recorded in a
  trace together with the `Range` header that was sent.
* `perform_checksum` / `extract_sha256_from_pointer_file`
  (src/utils/checksum.py): pointer-descriptor parsing and hash comparison.
  The sha256 digest itself and the two I/O actions (reading the file,
  fetching the pointer) enter as parameters; the parsing and comparison
  logic is translated verbatim.
* `extract_zip_file_recursive` / `extract` (src/utils/unzip_file.py): the
  recursive, depth-bounded archive extractor.  The filesystem is an
  association list from paths to files; archives are trees of entries.  The
  thread pool of `extract` joins all futures before returning and each
  future owns a disjoint subtree, so the model runs each submitted future
  at its submission point; exceptions raised by futures are collected and
  only logged after the loop, exactly as the `as_completed` handler does.
* `main` (src/download.py): the download, checksum, extraction pipeline.
-/

namespace Cap3D

/-! ### Downloader model — src/download.py -/

/-- One server response, as seen by one iteration of the retry loop of
`download_file_with_retry`:
* `ok chunks` — a success status; `iter_content` yields `chunks` and the
  transfer completes;
* `okPartial chunks` — a success status, but the connection drops after
  `chunks` have been yielded and written (a mid-stream
  `requests.exceptions.RequestException`);
* `status c` — `raise_for_status` raises `HTTPError` when `400 ≤ c`;
* `connErr` — `requests.get` itself raises a `RequestException`
  (connection error / timeout). -/
inductive SResp where
  | ok (chunks : List (List Nat))
  | okPartial (chunks : List (List Nat))
  | status (code : Nat)
  | connErr
deriving Repr, DecidableEq

/-- What `download_file_with_retry` does at its boundary: return `True`,
return `False`, or let an exception escape (the un-retried `raise` of the
`HTTPError` handler for statuses other than 416). -/
inductive DlOutcome where
  | success
  | failure
  | raisedHTTP (code : Nat)
deriving Repr, DecidableEq

/-- Observation of one attempt: the size of the destination on disk when the
attempt starts (`none` if the file does not exist), the bytes on disk at that
moment, and the offset of the `Range: bytes=<offset>-` header sent (`none` if
no `Range` header was sent). -/
structure AttEv where
  sizeOnDisk : Option Nat
  fileAtStart : List Nat
  rangeSent : Option Nat
deriving Repr, DecidableEq

/-- Result of a `download_file_with_retry` call: outcome, final destination
file, and the per-attempt trace. -/
structure DlRes where
  outcome : DlOutcome
  file : Option (List Nat)
  attempts : List AttEv
deriving Repr, DecidableEq

/-- Lines 135-138 of src/download.py: after a retryable failure the resume
header is recomputed from the current on-disk size; if the destination still
does not exist the header dict is left as it was. -/
def recomputeHeader (file : Option (List Nat)) (header : Option Nat) : Option Nat :=
  match file with
  | some bs => some bs.length
  | none => header

/-- The `while retry_count < max_retries` loop of `download_file_with_retry`
(src/download.py lines 70-142).  `fuel` is `max_retries - retry_count`:
every retryable failure increments `retry_count`, i.e. decrements `fuel`;
the loop exits with `False` when the fuel is exhausted.  `attemptIdx` is the
current value of `retry_count`, used to index the server's behaviour. -/
def dlLoop (server : Nat → SResp) (attemptIdx : Nat) (file : Option (List Nat))
    (header : Option Nat) : Nat → DlRes
  | 0 => ⟨.failure, file, []⟩
  | fuel + 1 =>
    let ev : AttEv := ⟨file.map List.length, file.getD [], header⟩
    match server attemptIdx with
    | .ok chunks =>
      -- open(destination, "ab") creates the file if missing and appends.
      ⟨.success, some (file.getD [] ++ chunks.flatten), [ev]⟩
    | .okPartial chunks =>
      let file' := some (file.getD [] ++ chunks.flatten)
      let res := dlLoop server (attemptIdx + 1) file' (recomputeHeader file' header) fuel
      ⟨res.outcome, res.file, ev :: res.attempts⟩
    | .status c =>
      if 400 ≤ c then
        if c = 416 then
          -- "(416 Range Not Satisfiable) The file has already been fully
          -- downloaded." — return True, destination untouched.
          ⟨.success, file, [ev]⟩
        else
          -- `else: raise` inside the HTTPError handler: a `raise` in an
          -- except clause is NOT caught by the sibling RequestException
          -- clause of the same try; the HTTPError escapes the function.
          ⟨.raisedHTTP c, file, [ev]⟩
      else
        -- non-error status: no exception; body already exhausted, file opened
        -- in append mode (created if missing) and the attempt returns True.
        ⟨.success, some (file.getD []), [ev]⟩
    | .connErr =>
      let res := dlLoop server (attemptIdx + 1) file (recomputeHeader file header) fuel
      ⟨res.outcome, res.file, ev :: res.attempts⟩

/-- `download_file_with_retry` (src/download.py lines 32-142): computes the
initial resume header from the pre-existing destination size (lines 66-68)
and runs the retry loop. -/
def download_file_with_retry (server : Nat → SResp) (max_retries : Nat)
    (file0 : Option (List Nat)) : DlRes :=
  let header0 : Option Nat :=
    match file0 with
    | some bs => some bs.length
    | none => none
  dlLoop server 0 file0 header0 max_retries

/-! ### Python string primitives on the character-list model

`String.endsWith`, `String.startsWith` and `String.splitOn` of the Lean
library do not reduce inside the kernel, so the Python string primitives
used by the source are modelled directly on `String.data`. -/

/-- `chListPre pre l` is true iff `pre` is an initial segment of `l`. -/
def chListPre : List Char → List Char → Bool
  | [], _ => true
  | _ :: _, [] => false
  | a :: as, b :: bs => a == b && chListPre as bs

/-- Python `s.startswith(pre)`. -/
def pyStartsWith (s pre : String) : Bool := chListPre pre.data s.data

/-- Python `s.endswith(suffix)`. -/
def pyEndsWith (s suffix : String) : Bool := chListPre suffix.data.reverse s.data.reverse

/-- Worker for `pySplit`; the fuel starts at the length of the string, which
is enough because every step consumes at least one character. -/
def pySplitAux (sep : List Char) : Nat → List Char → List Char → List (List Char)
  | _, [], acc => [acc.reverse]
  | 0, rest, acc => [acc.reverse ++ rest]
  | fuel + 1, c :: cs, acc =>
    if chListPre sep (c :: cs) then
      acc.reverse :: pySplitAux sep fuel (List.drop (sep.length - 1) cs) []
    else
      pySplitAux sep fuel cs (c :: acc)

/-- Python `s.split(sep)` for a non-empty separator: splits at every
non-overlapping occurrence of `sep`, scanning left to right. -/
def pySplit (sep : String) (s : String) : List String :=
  (pySplitAux sep.data s.data.length s.data []).map fun cs => String.mk cs

/-! ### Checksum model — src/utils/checksum.py -/

/-- `extract_sha256_from_pointer_file` (src/utils/checksum.py lines 29-53):
split the decoded pointer body into lines, find the first line starting with
`"oid sha256:"` (`next(..., None)`), and if one was found return the text
after the first `"sha256:"` (`sha256_line.split("sha256:")[1]`); otherwise
the function falls through and returns `None`. -/
def extract_sha256_from_pointer_file (bytes_data : String) : Option String :=
  let lines := pySplit "\n" bytes_data
  match lines.find? (fun line => pyStartsWith line "oid sha256:") with
  | some sha256_line => some (((pySplit "sha256:" sha256_line)).getD 1 "")
  | none => none

/-- `perform_checksum` (src/utils/checksum.py lines 83-130).  Reading the
local file, hashing it and fetching the pointer are I/O: the computed digest
`file_hash` and the fetched pointer body `pointer_file` enter as parameters.
The function returns `file_hash == expected_hash`; in Python a comparison of
a `str` with `None` is `False`, which the `none` branch renders. -/
def perform_checksum (file_hash : String) (pointer_file : String) : Bool :=
  match extract_sha256_from_pointer_file pointer_file with
  | some expected_hash => file_hash == expected_hash
  | none => false

/-! ### Pipeline — `main` of src/download.py -/

/-- Outcome of one run of `main` (src/download.py lines 245-267), after the
download result is known: whether `extract_zip_file_recursive` was invoked,
and whether the run aborted through the outer exception handler (the
`raise Exception("Checksum process failed ...")` path ends in `sys.exit`). -/
structure MainRes where
  extractionRan : Bool
  failed : Bool
deriving Repr, DecidableEq

/-- The control flow of `main` after `download_file_with_retry` returns
(src/download.py lines 245-267): on download success run `perform_checksum`;
on checksum failure raise (which the outer handler turns into an abort);
otherwise extract if `--unzip` was passed.  On download failure `main`
simply ends: nothing after the `if download_succeeded:` block runs. -/
def mainPipeline (download_succeeded : Bool) (file_hash pointer_file : String)
    (unzip : Bool) : MainRes :=
  if download_succeeded then
    if perform_checksum file_hash pointer_file then
      if unzip then ⟨true, false⟩ else ⟨false, false⟩
    else ⟨false, true⟩
  else ⟨false, false⟩

/-! ### Extraction model — src/utils/unzip_file.py

The filesystem is an association list from paths (lists of components) to
files.  Directories are not modelled: `create_directory` and `os.makedirs`
are used by the source only for their side effect of making target
directories exist (their boolean result feeds no control flow — the
`already_extracted` logic is commented out in the source).  An archive entry
is either a plain file or a nested zip with its own entries; extracting a
zip entry materialises it on disk as a zip file carrying those entries. -/

/-- A path, as a list of components. -/
abbrev FPath := List String

/-- An entry of a zip archive. -/
inductive ZEntry where
  | plain : String → ZEntry
  | zipE : String → List ZEntry → ZEntry

/-- A file on disk: a plain file, or a zip file with its entry list. -/
inductive DFile where
  | plainF : DFile
  | zipF : List ZEntry → DFile

/-- The disk: an association list from paths to files. -/
abbrev Disk := List (FPath × DFile)

/-- Look a path up on disk. -/
def lookupD : Disk → FPath → Option DFile
  | [], _ => none
  | e :: rest, p => if e.1 = p then some e.2 else lookupD rest p

/-- `os.remove`: drop a path from the disk. -/
def removeD (disk : Disk) (p : FPath) : Disk :=
  disk.filter fun e => e.1 ≠ p

/-- Write a file at a path, replacing any previous file there. -/
def writeD (disk : Disk) (p : FPath) (f : DFile) : Disk :=
  (p, f) :: removeD disk p

/-- `zipfile.is_zipfile(path)`: true iff the path exists on disk and is a
valid zip file (it returns `False`, without raising, for missing paths). -/
def is_zipfile (disk : Disk) (p : FPath) : Bool :=
  match lookupD disk p with
  | some (.zipF _) => true
  | _ => false

/-- The name of an entry, as listed by `ZipFile.namelist()`. -/
def entryName : ZEntry → String
  | .plain n => n
  | .zipE n _ => n

/-- The file that `ZipFile.extract` writes for an entry. -/
def entryFile : ZEntry → DFile
  | .plain _ => .plainF
  | .zipE _ cs => .zipF cs

/-- `os.path.splitext(item)[0]` for an `item` that ends in `".zip"`:
the name with its last four characters removed. -/
def stem (s : String) : String := String.mk (s.data.take (s.data.length - 4))

/-- Errors that extraction can raise: `FileNotFoundError` (line 78),
`zipfile.BadZipFile` (line 139), the depth `AssertionError` (lines 184-186),
and an out-of-fuel marker for the model's recursion bound. -/
inductive EErr where
  | fileNotFound (p : FPath)
  | badZip
  | assertDepth (maxD : Int)
  | noFuel
deriving Repr, DecidableEq

/-- Observable events of a run: entering `extract_zip_file_recursive` with
the (already incremented) depth it observes, extracting one entry, submitting
one nested extraction to the executor, deleting a zip file, and logging a
caught error (`logger.error("Error occurred: %s", e)`, line 209). -/
inductive Ev where
  | enter (p : FPath) (depth : Int)
  | extractEntry (p : FPath)
  | sched (p : FPath) (depthArg : Int)
  | removeEv (p : FPath)
  | logged (e : EErr)
deriving Repr, DecidableEq

/-- Result of a call to `extract_zip_file_recursive`: final disk, event
trace, and the exception propagating out of the call (if any). -/
structure RunRes where
  disk : Disk
  trace : List Ev
  err : Option EErr

/-- Result of the executor loop of `extract` (lines 179-209): final disk,
trace, the errors of submitted children (collected as they would be
retrieved from `future.result()` — and logged only if the submit loop itself
finishes), and the exception of the submit loop itself (the failed depth
assertion), if any. -/
structure LoopRes where
  disk : Disk
  trace : List Ev
  pending : List EErr
  err : Option EErr

/-- The submit loop of `extract` (src/utils/unzip_file.py lines 179-203):
for every `item` of the full `zip_ref.namelist()`, if the item name ends in
`".zip"` and the already-extracted file at `extract_to/item` is a valid zip,
assert the depth bound and submit `extract_zip_file_recursive` for it with
depth argument `current_recursion_depth + 1`.  All futures are joined before
`extract` returns and each future writes a disjoint subtree, so the model
runs each child at its submission point; a child's exception is recorded in
`pending` exactly as the `as_completed` loop (lines 205-209) would retrieve
and log it.  A failed assertion aborts the loop; the exceptions of the
already-submitted futures are then never retrieved (never logged). -/
def schedLoopF (recur : FPath → FPath → Int → Disk → RunRes) (extract_to : FPath)
    (d maxD : Int) : List String → Disk → LoopRes
  | [], disk => ⟨disk, [], [], none⟩
  | nm :: rest, disk =>
    if pyEndsWith nm ".zip" && is_zipfile disk (extract_to ++ [nm]) then
      if d ≤ maxD then
        let r := recur (extract_to ++ [nm]) (extract_to ++ [stem nm]) (d + 1) disk
        let rest' := schedLoopF recur extract_to d maxD rest r.disk
        ⟨rest'.disk,
         Ev.sched (extract_to ++ [nm]) (d + 1) :: (r.trace ++ rest'.trace),
         r.err.toList ++ rest'.pending,
         rest'.err⟩
      else
        ⟨disk, [], [], some (.assertDepth maxD)⟩
    else
      schedLoopF recur extract_to d maxD rest disk

/-- `extract` (src/utils/unzip_file.py lines 155-209) for one entry:
`zip_ref.extract(file_info, extract_to)` writes the entry's file, then the
executor loop scans the full name list; the caught errors of the children
are logged once the loop has completed. -/
def extract (recur : FPath → FPath → Int → Disk → RunRes) (allNames : List String)
    (extract_to : FPath) (d maxD : Int) (entry : ZEntry) (disk : Disk) : RunRes :=
  let p := extract_to ++ [entryName entry]
  let disk1 := writeD disk p (entryFile entry)
  let sl := schedLoopF recur extract_to d maxD allNames disk1
  match sl.err with
  | some err => ⟨sl.disk, Ev.extractEntry p :: sl.trace, some err⟩
  | none => ⟨sl.disk, Ev.extractEntry p :: (sl.trace ++ sl.pending.map Ev.logged), none⟩

/-- The `for file_info in zip_ref.infolist()` loop of
`extract_zip_file_recursive` (lines 104-137): call `extract` per entry; an
exception from `extract` propagates out of the loop. -/
def entriesLoop (recur : FPath → FPath → Int → Disk → RunRes) (allNames : List String)
    (extract_to : FPath) (d maxD : Int) : List ZEntry → Disk → RunRes
  | [], disk => ⟨disk, [], none⟩
  | e :: rest, disk =>
    let r := extract recur allNames extract_to d maxD e disk
    match r.err with
    | some err => ⟨r.disk, r.trace, some err⟩
    | none =>
      let rest' := entriesLoop recur allNames extract_to d maxD rest r.disk
      ⟨rest'.disk, r.trace ++ rest'.trace, rest'.err⟩

/-- `extract_zip_file_recursive` (src/utils/unzip_file.py lines 30-152).
`current_recursion_depth` is incremented at entry (line 56); a missing zip
file raises `FileNotFoundError` (line 78); opening a non-zip raises
`BadZipFile` (line 139, re-raised); every entry is extracted via `extract`;
after a successful loop the zip file is deleted iff the observed depth is at
least 1 (lines 143-145).  `fuel` bounds the model's recursion depth; every
nested submission (line 196) passes depth argument
`current_recursion_depth + 1`. -/
def extract_zip_file_recursive (maxD : Int) :
    Nat → FPath → FPath → Int → Disk → RunRes
  | 0, _, _, _, disk => ⟨disk, [], some .noFuel⟩
  | fuel + 1, zip_file, extract_to, current_recursion_depth, disk =>
    let d := current_recursion_depth + 1
    match lookupD disk zip_file with
    | none => ⟨disk, [.enter zip_file d], some (.fileNotFound zip_file)⟩
    | some .plainF => ⟨disk, [.enter zip_file d], some .badZip⟩
    | some (.zipF entries) =>
      let r := entriesLoop
        (fun ip cto dd dk => extract_zip_file_recursive maxD fuel ip cto dd dk)
        (entries.map entryName) extract_to d maxD entries disk
      match r.err with
      | some e => ⟨r.disk, Ev.enter zip_file d :: r.trace, some e⟩
      | none =>
        if 1 ≤ d then
          ⟨removeD r.disk zip_file,
           Ev.enter zip_file d :: (r.trace ++ [.removeEv zip_file]), none⟩
        else
          ⟨r.disk, Ev.enter zip_file d :: r.trace, none⟩

/-- A linear chain of nested containers: `chain 0` is a plain file `"f"`,
`chain (n+1)` is a zip entry `"c.zip"` containing `chain n`. -/
def chain : Nat → ZEntry
  | 0 => .plain "f"
  | n + 1 => .zipE "c.zip" [chain n]

/-- A disk holding a single top-level zip `"top.zip"` nested to depth `D`. -/
def topDisk (D : Nat) : Disk := [(["top.zip"], .zipF [chain D])]

/-- Run the extractor on `topDisk D` exactly as `main` calls it: initial
`current_recursion_depth = -1`, extracting to `"top"`. -/
def runTop (D : Nat) (maxD : Int) (fuel : Nat) : RunRes :=
  extract_zip_file_recursive maxD fuel ["top.zip"] ["top"] (-1) (topDisk D)

/-! ### Auxiliary definitions used by the theorems -/

/-- A response that the retry loop absorbs as a retryable transport error:
a `RequestException` raised by `requests.get` itself, or a mid-stream drop
while reading the body.  (HTTP error statuses are *not* in this class: their
`HTTPError` is re-raised out of the function, see `C4_counterexample`.) -/
def retryableResp : SResp → Bool
  | .connErr => true
  | .okPartial _ => true
  | _ => false

/-- `strictBelow base p`: `p` lies strictly inside the directory `base`. -/
def strictBelow (base p : FPath) : Prop := ∃ t, t ≠ [] ∧ base ++ t = p

/-- Recognises a logging event in a trace. -/
def isLogged : Ev → Bool
  | .logged _ => true
  | _ => false

/-- An archive with `i` plain entries named `"p"`, then one nested container
`"c.zip"` holding a single plain file, then `j` plain entries named `"q"`:
the family used to settle claim C10 about repeated scheduling. -/
def mixedEntries (i j : Nat) : List ZEntry :=
  List.replicate i (.plain "p") ++ .zipE "c.zip" [.plain "f"] :: List.replicate j (.plain "q")

/-- A disk holding `"top.zip"` with the `mixedEntries i j` archive. -/
def mixedDisk (i j : Nat) : Disk := [(["top.zip"], .zipF (mixedEntries i j))]

/-- Run of the extractor over `mixedDisk i j`, as `main` would start it. -/
def runMixed (i j : Nat) : RunRes :=
  extract_zip_file_recursive 1 3 ["top.zip"] ["top"] (-1) (mixedDisk i j)

/-- `extendsTo a b`: the byte list `b` is `a` with some suffix appended. -/
def extendsTo (a b : List Nat) : Prop := ∃ t, a ++ t = b

/-- A server that drops the connection mid-stream on the first attempt and
then serves the rest: used to exercise the resume invariant. -/
def cServer : Nat → SResp := fun i => if i = 0 then .okPartial [[1, 2]] else .ok [[3]]

/-! ### Theorems for the claims -/

/-- Against a server whose every response is a retryable transport error the
retry loop runs exactly `fuel` attempts and returns `False`. -/
theorem dlLoop_retryable (server : Nat → SResp)
    (h : ∀ i, retryableResp (server i) = true) :
    ∀ fuel idx file header,
      (dlLoop server idx file header fuel).outcome = .failure ∧
      (dlLoop server idx file header fuel).attempts.length = fuel := by
  intro fuel
  induction fuel with
  | zero => intro idx file header; exact ⟨rfl, rfl⟩
  | succ n ih =>
    intro idx file header
    have hs := h idx
    cases hsrv : server idx with
    | ok chunks => rw [hsrv] at hs; simp [retryableResp] at hs
    | status c => rw [hsrv] at hs; simp [retryableResp] at hs
    | okPartial chunks =>
      simp only [dlLoop, hsrv]
      exact ⟨(ih _ _ _).1, by simp [(ih _ _ _).2]⟩
    | connErr =>
      simp only [dlLoop, hsrv]
      exact ⟨(ih _ _ _).1, by simp [(ih _ _ _).2]⟩

/-- Claim C3 (counterexample): against a source failing every request with a
retryable transport error and `max_retries = 3`, `download_file_with_retry`
makes exactly 3 attempts — not the 4 (one initial plus 3 retries) the claim
states: the loop guard `while retry_count < max_retries` together with one
increment per failed attempt yields `max_retries` attempts in total. -/
theorem C3_counterexample :
    (download_file_with_retry (fun _ => SResp.connErr) 3 none).attempts.length = 3 ∧
    (download_file_with_retry (fun _ => SResp.connErr) 3 none).attempts.length ≠ 4 ∧
    (download_file_with_retry (fun _ => SResp.connErr) 3 none).outcome = .failure := by
  decide

/-- Claim C3 (amended): for every source that fails every request with a
retryable transport error, `download_file_with_retry` with `max_retries = 3`
makes exactly 3 attempts in total, returns `False`, and raises no exception
past its boundary. -/
theorem C3_retry_exhaustion (server : Nat → SResp) (file0 : Option (List Nat))
    (h : ∀ i, retryableResp (server i) = true) :
    (download_file_with_retry server 3 file0).outcome = .failure ∧
    (download_file_with_retry server 3 file0).attempts.length = 3 := by
  unfold download_file_with_retry
  exact dlLoop_retryable server h 3 0 file0 _

/-- Witness for `C3_retry_exhaustion` at the always-connection-error server. -/
theorem C3_witness :
    (download_file_with_retry (fun _ => SResp.connErr) 3 none).outcome = .failure ∧
    (download_file_with_retry (fun _ => SResp.connErr) 3 none).attempts.length = 3 :=
  C3_retry_exhaustion (fun _ => SResp.connErr) none (fun _ => rfl)

/-- Claim C4 (counterexample): a server answering every request with status
500 makes `download_file_with_retry` raise the `HTTPError` out of its
boundary on the first attempt — the error is not absorbed and no retry
happens, contrary to the claim.  The `raise` inside the `except HTTPError`
handler is not caught by the sibling `except RequestException` clause. -/
theorem C4_counterexample :
    (download_file_with_retry (fun _ => SResp.status 500) 3 none).outcome
      = .raisedHTTP 500 ∧
    (download_file_with_retry (fun _ => SResp.status 500) 3 none).attempts.length = 1 := by
  decide

/-- Claim C4 (amended): a response with a non-success status other than 416
causes `download_file_with_retry` to re-raise the `HTTPError` to its caller
immediately (a single attempt, no retry); a 416 status causes an immediate
return of `True` with the destination untouched. -/
theorem C4_http_error_policy (c : Nat) (hc : 400 ≤ c) (hne : c ≠ 416)
    (mr : Nat) (hmr : 0 < mr) (file0 : Option (List Nat)) :
    (download_file_with_retry (fun _ => SResp.status c) mr file0).outcome
      = .raisedHTTP c ∧
    (download_file_with_retry (fun _ => SResp.status c) mr file0).attempts.length = 1 ∧
    (download_file_with_retry (fun _ => SResp.status 416) mr file0).outcome
      = .success ∧
    (download_file_with_retry (fun _ => SResp.status 416) mr file0).file = file0 := by
  obtain ⟨n, rfl⟩ : ∃ n, mr = n + 1 := ⟨mr - 1, by omega⟩
  unfold download_file_with_retry
  simp [dlLoop, hc, hne]

/-- Witness for `C4_http_error_policy` at status 503 with one allowed
attempt. -/
theorem C4_witness :
    (download_file_with_retry (fun _ => SResp.status 503) 1 none).outcome
      = .raisedHTTP 503 ∧
    (download_file_with_retry (fun _ => SResp.status 503) 1 none).attempts.length = 1 ∧
    (download_file_with_retry (fun _ => SResp.status 416) 1 none).outcome
      = .success ∧
    (download_file_with_retry (fun _ => SResp.status 416) 1 none).file = none :=
  C4_http_error_policy 503 (by decide) (by decide) 1 (by decide) none

/-- Claim C5: extraction runs only if the download returned success and
`perform_checksum` returned `True`; whenever the computed digest differs
from the pointer's declared hash the pipeline halts (aborting through the
outer handler) before any extraction. -/
theorem C5_integrity_gate (ds : Bool) (fh ptr : String) (uz : Bool) :
    ((mainPipeline ds fh ptr uz).extractionRan = true →
      ds = true ∧ perform_checksum fh ptr = true) ∧
    (∀ expected, extract_sha256_from_pointer_file ptr = some expected →
      fh ≠ expected →
      (mainPipeline ds fh ptr uz).extractionRan = false ∧
      (ds = true → (mainPipeline ds fh ptr uz).failed = true)) := by
  constructor
  · intro hx
    cases ds with
    | false => simp [mainPipeline] at hx
    | true =>
      refine ⟨rfl, ?_⟩
      cases hpc : perform_checksum fh ptr with
      | true => rfl
      | false => simp [mainPipeline, hpc] at hx
  · intro expected hext hne
    have hpc : perform_checksum fh ptr = false := by
      simp [perform_checksum, hext]
      exact hne
    cases ds with
    | false => simp [mainPipeline]
    | true => simp [mainPipeline, hpc]

/-- Witness for `C5_integrity_gate`: a wrong digest against a pointer
declaring hash `"abc"` blocks extraction and aborts the run. -/
theorem C5_witness :
    (mainPipeline true "deadbeef" "oid sha256:abc" true).extractionRan = false ∧
    (true = true → (mainPipeline true "deadbeef" "oid sha256:abc" true).failed = true) :=
  (C5_integrity_gate true "deadbeef" "oid sha256:abc" true).2 "abc" (by decide) (by decide)

/-- Claim C8: a pointer body none of whose lines starts with
`"oid sha256:"` yields an absent (`None`) expected hash, and
`perform_checksum` then returns `False` for every computed digest. -/
theorem C8_absent_hash (ptr : String)
    (h : ∀ line ∈ pySplit "\n" ptr, pyStartsWith line "oid sha256:" = false) :
    extract_sha256_from_pointer_file ptr = none ∧
    ∀ file_hash, perform_checksum file_hash ptr = false := by
  have hf : (pySplit "\n" ptr).find? (fun line => pyStartsWith line "oid sha256:")
      = none := by
    rw [List.find?_eq_none]
    intro x hx
    simp [h x hx]
  constructor
  · simp [extract_sha256_from_pointer_file, hf]
  · intro fh
    simp [perform_checksum, extract_sha256_from_pointer_file, hf]

/-- Witness for `C8_absent_hash` on a marker-free pointer body. -/
theorem C8_witness :
    extract_sha256_from_pointer_file "version one\nsize 5" = none ∧
    perform_checksum "abc" "version one\nsize 5" = false :=
  ⟨(C8_absent_hash "version one\nsize 5" (by decide)).1,
   (C8_absent_hash "version one\nsize 5" (by decide)).2 "abc"⟩

/-- Claim C1 (evaluation at the failing inputs): with a container nested to
depth `D = 1` and `max_recursion_depth = D - 1 = 0` the extraction succeeds
and extracts the deepest level (the claim demands an `AssertionError`
instead); with depth `D = 3` and `max_recursion_depth = D = 3` the deepest
level is never extracted — the internal `AssertionError` is caught and only
logged — and the call still returns without error (the claim demands full
success instead). -/
theorem C1_depth_bound_eval :
    ((runTop 1 0 8).err = none ∧
      Ev.extractEntry ["top", "c", "f"] ∈ (runTop 1 0 8).trace) ∧
    ((runTop 3 3 8).err = none ∧
      Ev.extractEntry ["top", "c", "c", "c", "f"] ∉ (runTop 3 3 8).trace ∧
      Ev.logged (.assertDepth 3) ∈ (runTop 3 3 8).trace) := by
  decide

/-- Claim C2 (evaluation at the failing input): at nesting level 1 the
depth observed inside `extract_zip_file_recursive` is 2, not 1 — the
submission site passes `current_recursion_depth + 1` and the callee
increments again — and the call completes without error although its depth
2 exceeds `max_recursion_depth = 1`. -/
theorem C2_depth_observed_eval :
    (runTop 1 1 8).err = none ∧
    Ev.enter ["top.zip"] 0 ∈ (runTop 1 1 8).trace ∧
    Ev.enter ["top", "c.zip"] 2 ∈ (runTop 1 1 8).trace ∧
    Ev.enter ["top", "c.zip"] 1 ∉ (runTop 1 1 8).trace := by
  decide

/-- An exception escaping the submit loop of `extract` is always that
loop's own depth assertion, with the loop's own depth above the bound; a
submitted child's exception is never re-raised there. -/
theorem schedLoopF_err (recur : FPath → FPath → Int → Disk → RunRes)
    (extract_to : FPath) (d maxD : Int) :
    ∀ names disk e, (schedLoopF recur extract_to d maxD names disk).err = some e →
      e = .assertDepth maxD ∧ maxD < d := by
  intro names
  induction names with
  | nil => intro disk e h; simp [schedLoopF] at h
  | cons nm rest ih =>
    intro disk e h
    simp only [schedLoopF] at h
    by_cases hg : (pyEndsWith nm ".zip" && is_zipfile disk (extract_to ++ [nm])) = true
    · rw [if_pos hg] at h
      by_cases hd : d ≤ maxD
      · rw [if_pos hd] at h
        exact ih _ _ h
      · rw [if_neg hd] at h
        simp only at h
        cases h
        exact ⟨rfl, by omega⟩
    · rw [if_neg hg] at h
      exact ih _ _ h

/-- An exception escaping `extract` is the depth assertion of its own
submit loop. -/
theorem extract_err (recur : FPath → FPath → Int → Disk → RunRes)
    (allNames : List String) (extract_to : FPath) (d maxD : Int) (entry : ZEntry)
    (disk : Disk) (e : EErr)
    (h : (extract recur allNames extract_to d maxD entry disk).err = some e) :
    e = .assertDepth maxD ∧ maxD < d := by
  simp only [extract] at h
  split at h
  · next err heq =>
    simp only at h
    cases h
    exact schedLoopF_err recur extract_to d maxD _ _ _ heq
  · simp at h

/-- An exception escaping the per-entry loop of
`extract_zip_file_recursive` is the depth assertion of this level. -/
theorem entriesLoop_err (recur : FPath → FPath → Int → Disk → RunRes)
    (allNames : List String) (extract_to : FPath) (d maxD : Int) :
    ∀ entries disk e,
      (entriesLoop recur allNames extract_to d maxD entries disk).err = some e →
      e = .assertDepth maxD ∧ maxD < d := by
  intro entries
  induction entries with
  | nil => intro disk e h; simp [entriesLoop] at h
  | cons en rest ih =>
    intro disk e h
    simp only [entriesLoop] at h
    split at h
    · next err heq => cases h; exact extract_err _ _ _ _ _ _ _ _ heq
    · exact ih _ _ h

/-- Claim C6 (counterexample): extracting a container nested to depth 2
with `max_recursion_depth = 0` makes the nested extraction at level 1 fail
with the depth `AssertionError`, yet the top-level call completes without
error — the failure is only written to the log, not surfaced to the caller
of the parent extraction. -/
theorem C6_counterexample :
    (runTop 2 0 8).err = none ∧
    Ev.logged (.assertDepth 0) ∈ (runTop 2 0 8).trace := by
  decide

/-- Claim C6 (amended): a failure in a nested extraction is never
propagated to the caller of the parent extraction; once the siblings are
joined it is written to the log and the parent call returns normally.  Any
exception a call to `extract_zip_file_recursive` does raise is its own:
out of model fuel, its own missing zip file, its own corrupt zip file, or
its own depth assertion — the latter only with its own observed depth above
the bound. -/
theorem C6_child_failures_not_propagated (maxD : Int) (fuel : Nat)
    (zip_file extract_to : FPath) (dp : Int) (disk : Disk) (e : EErr)
    (h : (extract_zip_file_recursive maxD fuel zip_file extract_to dp disk).err
      = some e) :
    e = .noFuel ∨ e = .fileNotFound zip_file ∨ e = .badZip ∨
      (e = .assertDepth maxD ∧ maxD < dp + 1) := by
  cases fuel with
  | zero =>
    cases h
    exact Or.inl rfl
  | succ n =>
    simp only [extract_zip_file_recursive] at h
    split at h
    · cases h; exact Or.inr (Or.inl rfl)
    · cases h; exact Or.inr (Or.inr (Or.inl rfl))
    · split at h
      · next e' heq =>
        cases h
        exact Or.inr (Or.inr (Or.inr (entriesLoop_err _ _ _ _ _ _ _ _ heq)))
      · split at h <;> simp at h

/-- Witness for `C6_child_failures_not_propagated` at a missing zip file. -/
theorem C6_witness :
    EErr.fileNotFound ["nope.zip"] = EErr.noFuel ∨
    EErr.fileNotFound ["nope.zip"] = EErr.fileNotFound ["nope.zip"] ∨
    EErr.fileNotFound ["nope.zip"] = EErr.badZip ∨
    (EErr.fileNotFound ["nope.zip"] = EErr.assertDepth 1 ∧ (1 : Int) < -1 + 1) :=
  C6_child_failures_not_propagated 1 1 ["nope.zip"] ["x"] (-1) []
    (EErr.fileNotFound ["nope.zip"]) rfl


theorem strictBelow_append (base : FPath) (x : String) (p : FPath)
    (h : p = base ++ [x] ∨ strictBelow (base ++ [x]) p) : strictBelow base p := by
  rcases h with rfl | ⟨t, ht, rfl⟩
  · exact ⟨[x], by simp, rfl⟩
  · exact ⟨[x] ++ t, by simp, by rw [← List.append_assoc]⟩

theorem lookupD_removeD_ne (p q : FPath) (h : q ≠ p) :
    ∀ disk : Disk, lookupD (removeD disk p) q = lookupD disk q := by
  intro disk
  induction disk with
  | nil => rfl
  | cons a rest ih =>
    simp only [removeD] at ih ⊢
    rw [List.filter_cons]
    by_cases he : a.1 = p
    · rw [if_neg (by simp [he])]
      rw [ih]
      simp only [lookupD]
      rw [if_neg (fun hh : a.1 = q => h (hh ▸ he))]
    · rw [if_pos (by simp [he])]
      simp only [lookupD]
      rw [ih]

theorem lookupD_removeD_self (p : FPath) :
    ∀ disk : Disk, lookupD (removeD disk p) p = none := by
  intro disk
  induction disk with
  | nil => rfl
  | cons a rest ih =>
    simp only [removeD] at ih ⊢
    rw [List.filter_cons]
    by_cases he : a.1 = p
    · rw [if_neg (by simp [he])]
      exact ih
    · rw [if_pos (by simp [he])]
      simp only [lookupD]
      rw [if_neg he]
      exact ih

theorem lookupD_writeD_ne (disk : Disk) (p q : FPath) (f : DFile) (h : q ≠ p) :
    lookupD (writeD disk p f) q = lookupD disk q := by
  simp only [writeD, lookupD]
  rw [if_neg (fun hh : p = q => h hh.symm)]
  exact lookupD_removeD_ne p q h disk

theorem lookupD_writeD_self (disk : Disk) (p : FPath) (f : DFile) :
    lookupD (writeD disk p f) p = some f := by
  simp [writeD, lookupD]


theorem schedLoopF_remove (recur : FPath → FPath → Int → Disk → RunRes)
    (Hrecur : ∀ ip cto dd dk p, Ev.removeEv p ∈ (recur ip cto dd dk).trace →
      p = ip ∨ strictBelow cto p)
    (extract_to : FPath) (d maxD : Int) :
    ∀ names disk p,
      Ev.removeEv p ∈ (schedLoopF recur extract_to d maxD names disk).trace →
      strictBelow extract_to p := by
  intro names
  induction names with
  | nil => intro disk p h; simp [schedLoopF] at h
  | cons nm rest ih =>
    intro disk p h
    simp only [schedLoopF] at h
    by_cases hg : (pyEndsWith nm ".zip" && is_zipfile disk (extract_to ++ [nm])) = true
    · rw [if_pos hg] at h
      by_cases hd : d ≤ maxD
      · rw [if_pos hd] at h
        simp only at h
        rcases List.mem_cons.mp h with h | h
        · cases h
        · rcases List.mem_append.mp h with h | h
          · rcases Hrecur _ _ _ _ _ h with rfl | ⟨t, ht, rfl⟩
            · exact ⟨[nm], by simp, rfl⟩
            · exact ⟨stem nm :: t, by simp, by simp⟩
          · exact ih _ _ h
      · rw [if_neg hd] at h
        simp at h
    · rw [if_neg hg] at h
      exact ih _ _ h

theorem extract_remove (recur : FPath → FPath → Int → Disk → RunRes)
    (Hrecur : ∀ ip cto dd dk p, Ev.removeEv p ∈ (recur ip cto dd dk).trace →
      p = ip ∨ strictBelow cto p)
    (allNames : List String) (extract_to : FPath) (d maxD : Int) (entry : ZEntry)
    (disk : Disk) (p : FPath)
    (h : Ev.removeEv p ∈ (extract recur allNames extract_to d maxD entry disk).trace) :
    strictBelow extract_to p := by
  simp only [extract] at h
  split at h
  · simp only at h
    rcases List.mem_cons.mp h with h | h
    · cases h
    · exact schedLoopF_remove recur Hrecur extract_to d maxD _ _ _ h
  · simp only at h
    rcases List.mem_cons.mp h with h | h
    · cases h
    · rcases List.mem_append.mp h with h | h
      · exact schedLoopF_remove recur Hrecur extract_to d maxD _ _ _ h
      · rcases List.mem_map.mp h with ⟨x, _, hx⟩
        cases hx

theorem entriesLoop_remove (recur : FPath → FPath → Int → Disk → RunRes)
    (Hrecur : ∀ ip cto dd dk p, Ev.removeEv p ∈ (recur ip cto dd dk).trace →
      p = ip ∨ strictBelow cto p)
    (allNames : List String) (extract_to : FPath) (d maxD : Int) :
    ∀ entries disk p,
      Ev.removeEv p ∈ (entriesLoop recur allNames extract_to d maxD entries disk).trace →
      strictBelow extract_to p := by
  intro entries
  induction entries with
  | nil => intro disk p h; simp [entriesLoop] at h
  | cons en rest ih =>
    intro disk p h
    simp only [entriesLoop] at h
    split at h
    · simp only at h
      exact extract_remove recur Hrecur _ _ _ _ _ _ _ h
    · simp only at h
      rcases List.mem_append.mp h with h | h
      · exact extract_remove recur Hrecur _ _ _ _ _ _ _ h
      · exact ih _ _ h

theorem ezfr_remove (maxD : Int) :
    ∀ fuel zip_file extract_to dp disk p,
      Ev.removeEv p ∈
        (extract_zip_file_recursive maxD fuel zip_file extract_to dp disk).trace →
      (p = zip_file ∧ 1 ≤ dp + 1) ∨ strictBelow extract_to p := by
  intro fuel
  induction fuel with
  | zero => intro zp eT dp disk p h; simp [extract_zip_file_recursive] at h
  | succ n ih =>
    intro zp eT dp disk p h
    have Hrecur : ∀ ip cto dd dk q,
        Ev.removeEv q ∈ (extract_zip_file_recursive maxD n ip cto dd dk).trace →
        q = ip ∨ strictBelow cto q :=
      fun ip cto dd dk q hq => (ih ip cto dd dk q hq).imp And.left id
    simp only [extract_zip_file_recursive] at h
    split at h
    · simp at h
    · simp at h
    · split at h
      · simp only at h
        rcases List.mem_cons.mp h with h | h
        · cases h
        · exact Or.inr (entriesLoop_remove _ Hrecur _ _ _ _ _ _ _ h)
      · by_cases hd : 1 ≤ dp + 1
        · rw [if_pos hd] at h
          simp only at h
          rcases List.mem_cons.mp h with h | h
          · cases h
          · rcases List.mem_append.mp h with h | h
            · exact Or.inr (entriesLoop_remove _ Hrecur _ _ _ _ _ _ _ h)
            · rcases List.mem_singleton.mp h with h
              cases h
              exact Or.inl ⟨rfl, hd⟩
        · rw [if_neg hd] at h
          simp only at h
          rcases List.mem_cons.mp h with h | h
          · cases h
          · exact Or.inr (entriesLoop_remove _ Hrecur _ _ _ _ _ _ _ h)

theorem schedLoopF_disk (recur : FPath → FPath → Int → Disk → RunRes)
    (Hrecur : ∀ ip cto dd dk q, ¬ strictBelow cto q → q ≠ ip →
      lookupD ((recur ip cto dd dk).disk) q = lookupD dk q)
    (extract_to : FPath) (d maxD : Int) :
    ∀ names disk q, ¬ strictBelow extract_to q →
      lookupD ((schedLoopF recur extract_to d maxD names disk).disk) q
        = lookupD disk q := by
  intro names
  induction names with
  | nil => intro disk q hq; simp [schedLoopF]
  | cons nm rest ih =>
    intro disk q hq
    simp only [schedLoopF]
    by_cases hg : (pyEndsWith nm ".zip" && is_zipfile disk (extract_to ++ [nm])) = true
    · rw [if_pos hg]
      by_cases hd : d ≤ maxD
      · rw [if_pos hd]
        simp only
        have hne : q ≠ extract_to ++ [nm] := by
          rintro rfl
          exact hq ⟨[nm], by simp, rfl⟩
        have hnb : ¬ strictBelow (extract_to ++ [stem nm]) q := by
          rintro ⟨t, ht, rfl⟩
          exact hq ⟨stem nm :: t, by simp, by simp⟩
        rw [ih _ _ hq, Hrecur _ _ _ _ _ hnb hne]
      · rw [if_neg hd]
    · rw [if_neg hg]
      exact ih _ _ hq

theorem extract_disk (recur : FPath → FPath → Int → Disk → RunRes)
    (Hrecur : ∀ ip cto dd dk q, ¬ strictBelow cto q → q ≠ ip →
      lookupD ((recur ip cto dd dk).disk) q = lookupD dk q)
    (allNames : List String) (extract_to : FPath) (d maxD : Int) (entry : ZEntry)
    (disk : Disk) (q : FPath) (hq : ¬ strictBelow extract_to q) :
    lookupD ((extract recur allNames extract_to d maxD entry disk).disk) q
      = lookupD disk q := by
  have hne : q ≠ extract_to ++ [entryName entry] := by
    rintro rfl
    exact hq ⟨[entryName entry], by simp, rfl⟩
  simp only [extract]
  split
  · simp only
    rw [schedLoopF_disk recur Hrecur extract_to d maxD _ _ _ hq,
      lookupD_writeD_ne _ _ _ _ hne]
  · simp only
    rw [schedLoopF_disk recur Hrecur extract_to d maxD _ _ _ hq,
      lookupD_writeD_ne _ _ _ _ hne]

theorem entriesLoop_disk (recur : FPath → FPath → Int → Disk → RunRes)
    (Hrecur : ∀ ip cto dd dk q, ¬ strictBelow cto q → q ≠ ip →
      lookupD ((recur ip cto dd dk).disk) q = lookupD dk q)
    (allNames : List String) (extract_to : FPath) (d maxD : Int) :
    ∀ entries disk q, ¬ strictBelow extract_to q →
      lookupD ((entriesLoop recur allNames extract_to d maxD entries disk).disk) q
        = lookupD disk q := by
  intro entries
  induction entries with
  | nil => intro disk q hq; simp [entriesLoop]
  | cons en rest ih =>
    intro disk q hq
    simp only [entriesLoop]
    split
    · simp only
      next heq =>
        have := extract_disk recur Hrecur allNames extract_to d maxD en disk q hq
        exact this
    · simp only
      rw [ih _ _ hq, extract_disk recur Hrecur allNames extract_to d maxD en disk q hq]

theorem ezfr_disk (maxD : Int) :
    ∀ fuel zip_file extract_to dp disk q,
      ¬ strictBelow extract_to q → (q = zip_file → dp + 1 < 1) →
      lookupD ((extract_zip_file_recursive maxD fuel zip_file extract_to dp disk).disk) q
        = lookupD disk q := by
  intro fuel
  induction fuel with
  | zero => intro zp eT dp disk q hq hz; rfl
  | succ n ih =>
    intro zp eT dp disk q hq hz
    have Hrecur : ∀ ip cto dd dk r, ¬ strictBelow cto r → r ≠ ip →
        lookupD ((extract_zip_file_recursive maxD n ip cto dd dk).disk) r
          = lookupD dk r :=
      fun ip cto dd dk r hb hne => ih ip cto dd dk r hb (fun hr => absurd hr hne)
    simp only [extract_zip_file_recursive]
    split
    · rfl
    · rfl
    · split
      · simp only
        exact entriesLoop_disk _ Hrecur _ _ _ _ _ _ _ hq
      · by_cases hd : (1 : Int) ≤ dp + 1
        · rw [if_pos hd]
          simp only
          have hne : q ≠ zp := fun hr => by have h1 := hz hr; omega
          rw [lookupD_removeD_ne _ _ hne,
            entriesLoop_disk _ Hrecur _ _ _ _ _ _ _ hq]
        · rw [if_neg hd]
          simp only
          exact entriesLoop_disk _ Hrecur _ _ _ _ _ _ _ hq


/-- Transitivity of the append-extension order on byte lists. -/
theorem extendsTo_trans (a b c : List Nat) (h1 : extendsTo a b) (h2 : extendsTo b c) :
    extendsTo a c := by
  obtain ⟨t1, rfl⟩ := h1
  obtain ⟨t2, rfl⟩ := h2
  exact ⟨t1 ++ t2, by rw [List.append_assoc]⟩

/-- Invariant of the retry loop: provided the resume header equals the
current file size, the destination only ever grows, and every attempt's
`Range` offset equals the on-disk size at the start of that attempt. -/
theorem dlLoop_invariant (server : Nat → SResp) :
    ∀ fuel idx (file : Option (List Nat)) header,
      header = file.map List.length →
      extendsTo (file.getD []) ((dlLoop server idx file header fuel).file.getD []) ∧
      ∀ e ∈ (dlLoop server idx file header fuel).attempts,
        e.rangeSent = e.sizeOnDisk ∧
        extendsTo e.fileAtStart ((dlLoop server idx file header fuel).file.getD []) := by
  intro fuel
  induction fuel with
  | zero =>
    intro idx file header hinv
    exact ⟨⟨[], List.append_nil _⟩, fun e he => absurd he (List.not_mem_nil e)⟩
  | succ n ih =>
    intro idx file header hinv
    cases hsrv : server idx with
    | ok chunks =>
      simp only [dlLoop, hsrv]
      refine ⟨⟨chunks.flatten, rfl⟩, fun e he => ?_⟩
      rcases List.mem_singleton.mp he with rfl
      exact ⟨hinv ▸ rfl, ⟨chunks.flatten, rfl⟩⟩
    | status c =>
      simp only [dlLoop, hsrv]
      by_cases hc : 400 ≤ c
      · rw [if_pos hc]
        by_cases h416 : c = 416
        · rw [if_pos h416]
          refine ⟨⟨[], List.append_nil _⟩, fun e he => ?_⟩
          rcases List.mem_singleton.mp he with rfl
          exact ⟨hinv ▸ rfl, ⟨[], List.append_nil _⟩⟩
        · rw [if_neg h416]
          refine ⟨⟨[], List.append_nil _⟩, fun e he => ?_⟩
          rcases List.mem_singleton.mp he with rfl
          exact ⟨hinv ▸ rfl, ⟨[], List.append_nil _⟩⟩
      · rw [if_neg hc]
        refine ⟨⟨[], List.append_nil _⟩, fun e he => ?_⟩
        rcases List.mem_singleton.mp he with rfl
        exact ⟨hinv ▸ rfl, ⟨[], List.append_nil _⟩⟩
    | okPartial chunks =>
      simp only [dlLoop, hsrv]
      have hinv' : recomputeHeader (some (file.getD [] ++ chunks.flatten)) header
          = (some (file.getD [] ++ chunks.flatten)).map List.length := rfl
      have hrec := ih (idx + 1) (some (file.getD [] ++ chunks.flatten)) _ hinv'
      have hstep : extendsTo (file.getD [])
          ((some (file.getD [] ++ chunks.flatten)).getD []) := ⟨chunks.flatten, rfl⟩
      refine ⟨extendsTo_trans _ _ _ hstep hrec.1, fun e he => ?_⟩
      rcases List.mem_cons.mp he with rfl | he
      · exact ⟨hinv ▸ rfl, extendsTo_trans _ _ _ hstep hrec.1⟩
      · exact hrec.2 e he
    | connErr =>
      simp only [dlLoop, hsrv]
      have hinv' : recomputeHeader file header = file.map List.length := by
        cases file with
        | none => exact hinv
        | some bs => rfl
      have hrec := ih (idx + 1) file _ hinv'
      refine ⟨hrec.1, fun e he => ?_⟩
      rcases List.mem_cons.mp he with rfl | he
      · exact ⟨hinv ▸ rfl, hrec.1⟩
      · exact hrec.2 e he

/-- Claim C7: across all attempts of one `download_file_with_retry` call
the destination is append-only — the bytes on disk at the start of any
attempt are a prefix of the final file — and every attempt's `Range` request
offset equals the destination's on-disk size at that moment (in particular
no `Range` header is sent when the destination does not exist). -/
theorem C7_append_only (server : Nat → SResp) (mr : Nat) (f0 : Option (List Nat)) :
    extendsTo (f0.getD []) ((download_file_with_retry server mr f0).file.getD []) ∧
    ∀ e ∈ (download_file_with_retry server mr f0).attempts,
      e.rangeSent = e.sizeOnDisk ∧
      extendsTo e.fileAtStart ((download_file_with_retry server mr f0).file.getD []) := by
  unfold download_file_with_retry
  exact dlLoop_invariant server mr 0 f0 _ (by cases f0 <;> rfl)

/-- Witness for `C7_append_only`: the resumed second attempt of a transfer
that dropped mid-stream sends offset 2 — the size on disk — and its bytes
survive into the final file. -/
theorem C7_witness :
    (⟨some 2, [1, 2], some 2⟩ : AttEv).rangeSent
      = (⟨some 2, [1, 2], some 2⟩ : AttEv).sizeOnDisk ∧
    extendsTo (⟨some 2, [1, 2], some 2⟩ : AttEv).fileAtStart
      ((download_file_with_retry cServer 2 none).file.getD []) :=
  (C7_append_only cServer 2 none).2 ⟨some 2, [1, 2], some 2⟩ (by decide)

/-- Claim C9: a nested container — one whose extraction is entered with an
observed depth of at least 1 — is deleted from disk after its extraction
completes without error, while a top-level call (started, as `main` starts
it, with `current_recursion_depth = -1`) never deletes its own container:
no deletion event for the top-level path occurs and the disk entry of the
top-level container is untouched, provided that path does not lie inside
the extraction target directory. -/
theorem C9_nested_deleted :
    (∀ maxD fuel zip_file extract_to dp disk, (1 : Int) ≤ dp + 1 →
      (extract_zip_file_recursive maxD fuel zip_file extract_to dp disk).err = none →
      Ev.removeEv zip_file ∈
        (extract_zip_file_recursive maxD fuel zip_file extract_to dp disk).trace) ∧
    (∀ maxD fuel zip_file extract_to disk, ¬ strictBelow extract_to zip_file →
      Ev.removeEv zip_file ∉
        (extract_zip_file_recursive maxD fuel zip_file extract_to (-1) disk).trace) ∧
    (∀ maxD fuel zip_file extract_to disk, ¬ strictBelow extract_to zip_file →
      lookupD
          ((extract_zip_file_recursive maxD fuel zip_file extract_to (-1) disk).disk)
          zip_file
        = lookupD disk zip_file) := by
  refine ⟨?_, ?_, ?_⟩
  · intro maxD fuel zp eT dp disk hdp herr
    cases fuel with
    | zero => cases herr
    | succ n =>
      cases hlk : lookupD disk zp with
      | none => simp [extract_zip_file_recursive, hlk] at herr
      | some df =>
        cases df with
        | plainF => simp [extract_zip_file_recursive, hlk] at herr
        | zipF entries =>
          simp only [extract_zip_file_recursive, hlk] at herr ⊢
          cases hre : (entriesLoop
              (fun ip cto dd dk => extract_zip_file_recursive maxD n ip cto dd dk)
              (List.map entryName entries) eT (dp + 1) maxD entries disk).err with
          | some e => simp [hre] at herr
          | none =>
            simp only [hre, if_pos hdp]
            exact List.mem_cons_of_mem _
              (List.mem_append_right _ (List.mem_singleton.mpr rfl))
  · intro maxD fuel zp eT disk hnb hmem
    rcases ezfr_remove maxD fuel zp eT (-1) disk zp hmem with ⟨-, h1⟩ | hb
    · omega
    · exact hnb hb
  · intro maxD fuel zp eT disk hnb
    exact ezfr_disk maxD fuel zp eT (-1) disk zp hnb (fun _ => by omega)

/-- Witness for `C9_nested_deleted` on a depth-1 container. -/
theorem C9_witness :
    (Ev.removeEv ["top", "c.zip"] ∈
      (extract_zip_file_recursive 1 4 ["top", "c.zip"] ["top", "c"] 0
        [(["top", "c.zip"], DFile.zipF [.plain "f"])]).trace) ∧
    (Ev.removeEv ["top.zip"] ∉
      (extract_zip_file_recursive 1 8 ["top.zip"] ["top"] (-1) (topDisk 1)).trace) ∧
    lookupD
        ((extract_zip_file_recursive 1 8 ["top.zip"] ["top"] (-1) (topDisk 1)).disk)
        ["top.zip"]
      = lookupD (topDisk 1) ["top.zip"] := by
  have hnsb : ¬ strictBelow ["top"] ["top.zip"] := by
    rintro ⟨t, ht, he⟩
    simp only [List.cons_append, List.nil_append] at he
    injection he with h1 h2
    exact absurd h1 (by decide)
  exact ⟨C9_nested_deleted.1 1 4 ["top", "c.zip"] ["top", "c"] 0
      [(["top", "c.zip"], DFile.zipF [.plain "f"])] (by decide) (by decide),
    C9_nested_deleted.2.1 1 8 ["top.zip"] ["top"] (topDisk 1) hnsb,
    C9_nested_deleted.2.2 1 8 ["top.zip"] ["top"] (topDisk 1) hnsb⟩


/-- Names that do not end in `".zip"` are skipped by the submit loop. -/
theorem schedLoopF_skip (recur : FPath → FPath → Int → Disk → RunRes)
    (extract_to : FPath) (d maxD : Int) (nm : String)
    (hnm : pyEndsWith nm ".zip" = false) :
    ∀ k rest disk,
      schedLoopF recur extract_to d maxD (List.replicate k nm ++ rest) disk
        = schedLoopF recur extract_to d maxD rest disk := by
  intro k
  induction k with
  | zero => intro rest disk; rfl
  | succ n ih =>
    intro rest disk
    rw [List.replicate_succ, List.cons_append]
    simp only [schedLoopF, hnm, Bool.false_and, Bool.false_eq_true, if_false]
    exact ih rest disk

/-- A name list with no `".zip"`-suffixed name makes the submit loop a
no-op. -/
theorem schedLoopF_noop_plain (recur : FPath → FPath → Int → Disk → RunRes)
    (extract_to : FPath) (d maxD : Int) :
    ∀ names, (∀ nm ∈ names, pyEndsWith nm ".zip" = false) →
      ∀ disk, schedLoopF recur extract_to d maxD names disk = ⟨disk, [], [], none⟩ := by
  intro names
  induction names with
  | nil => intro _ disk; rfl
  | cons nm rest ih =>
    intro h disk
    have hnm := h nm (List.mem_cons_self nm rest)
    simp only [schedLoopF, hnm, Bool.false_and, Bool.false_eq_true, if_false]
    exact ih (fun x hx => h x (List.mem_cons_of_mem nm hx)) disk

/-- Over the `mixedEntries` name list the submit loop is a no-op whenever
the nested container is not currently on disk as a valid zip: the validity
probe `is_zipfile` guards every submission. -/
theorem schedLoopF_noop_mixed (recur : FPath → FPath → Int → Disk → RunRes)
    (extract_to : FPath) (d maxD : Int) (i j : Nat) (disk : Disk)
    (hpz : is_zipfile disk (extract_to ++ ["c.zip"]) = false) :
    schedLoopF recur extract_to d maxD
        (List.replicate i "p" ++ "c.zip" :: List.replicate j "q") disk
      = ⟨disk, [], [], none⟩ := by
  rw [schedLoopF_skip recur extract_to d maxD "p" (by decide)]
  simp only [schedLoopF, hpz, Bool.and_false, Bool.false_eq_true, if_false]
  exact schedLoopF_noop_plain recur extract_to d maxD _
    (fun nm hnm => by rw [List.eq_of_mem_replicate hnm]; decide) disk

/-- Writing a plain file never makes the zip probe succeed. -/
theorem is_zipfile_write_plain (disk : Disk) (p q : FPath)
    (h : is_zipfile disk q = false) :
    is_zipfile (writeD disk p DFile.plainF) q = false := by
  by_cases hpq : q = p
  · subst hpq
    simp [is_zipfile, lookupD_writeD_self]
  · simp only [is_zipfile]
    rw [lookupD_writeD_ne _ _ _ _ hpq]
    exact h

/-- After deleting a path the zip probe at that path fails. -/
theorem is_zipfile_remove_self (disk : Disk) (p : FPath) :
    is_zipfile (removeD disk p) p = false := by
  simp [is_zipfile, lookupD_removeD_self]

/-- Extracting a block of plain entries only writes their files: no
submission, no logged error, and the nested-zip probe stays false. -/
theorem entriesLoop_replicate_plain (recur : FPath → FPath → Int → Disk → RunRes)
    (allNames : List String) (extract_to : FPath) (d maxD : Int) (nm : String)
    (pz : FPath)
    (hsk : ∀ dk, is_zipfile dk pz = false →
      schedLoopF recur extract_to d maxD allNames dk = ⟨dk, [], [], none⟩) :
    ∀ k disk, is_zipfile disk pz = false →
      ∃ dk', entriesLoop recur allNames extract_to d maxD
          (List.replicate k (.plain nm)) disk
        = ⟨dk', List.replicate k (.extractEntry (extract_to ++ [nm])), none⟩ ∧
        is_zipfile dk' pz = false := by
  intro k
  induction k with
  | zero => intro disk h; exact ⟨disk, rfl, h⟩
  | succ n ih =>
    intro disk h
    have h1 : is_zipfile (writeD disk (extract_to ++ [nm]) DFile.plainF) pz = false :=
      is_zipfile_write_plain disk _ pz h
    obtain ⟨dk', hdk, hz⟩ := ih (writeD disk (extract_to ++ [nm]) DFile.plainF) h1
    refine ⟨dk', ?_, hz⟩
    rw [List.replicate_succ]
    simp only [entriesLoop, extract, entryName, entryFile, hsk _ h1]
    simp only [hdk]
    rw [List.replicate_succ]
    simp

/-- The per-entry loop over `as ++ bs` runs `as` first and, if no
exception was raised, continues with `bs` on the resulting disk. -/
theorem entriesLoop_append_ok (recur : FPath → FPath → Int → Disk → RunRes)
    (allNames : List String) (extract_to : FPath) (d maxD : Int) :
    ∀ as bs disk dk1 tr1,
      entriesLoop recur allNames extract_to d maxD as disk = ⟨dk1, tr1, none⟩ →
      entriesLoop recur allNames extract_to d maxD (as ++ bs) disk
        = ⟨(entriesLoop recur allNames extract_to d maxD bs dk1).disk,
           tr1 ++ (entriesLoop recur allNames extract_to d maxD bs dk1).trace,
           (entriesLoop recur allNames extract_to d maxD bs dk1).err⟩ := by
  intro as
  induction as with
  | nil =>
    intro bs disk dk1 tr1 h
    have h1 : dk1 = disk := congrArg RunRes.disk h.symm
    have h2 : tr1 = [] := congrArg RunRes.trace h.symm
    subst h1; subst h2
    simp
  | cons a rest ih =>
    intro bs disk dk1 tr1 h
    rw [List.cons_append]
    simp only [entriesLoop] at h ⊢
    cases hre : (extract recur allNames extract_to d maxD a disk).err with
    | some e =>
      rw [hre] at h
      simp only at h
      cases congrArg RunRes.err h
    | none =>
      rw [hre] at h
      simp only at h ⊢
      cases hrest : entriesLoop recur allNames extract_to d maxD rest
          (extract recur allNames extract_to d maxD a disk).disk with
      | mk dk2 tr2 err2 =>
        rw [hrest] at h
        simp only at h
        have herr : err2 = none := congrArg RunRes.err h
        subst herr
        have htr : tr1 = (extract recur allNames extract_to d maxD a disk).trace ++ tr2 :=
          (congrArg RunRes.trace h).symm
        have hdk : dk2 = dk1 := congrArg RunRes.disk h
        subst hdk
        rw [ih bs _ _ _ hrest]
        simp [htr]

/-- The full run of the nested container `"top/c.zip"` (one plain entry):
extract the entry, then delete the container (observed depth 2 ≥ 1). -/
theorem childRun (disk : Disk)
    (h : lookupD disk ["top", "c.zip"] = some (DFile.zipF [.plain "f"])) :
    extract_zip_file_recursive 1 2 ["top", "c.zip"] ["top", "c"] 1 disk
      = ⟨removeD (writeD disk ["top", "c", "f"] DFile.plainF) ["top", "c.zip"],
         [.enter ["top", "c.zip"] 2, .extractEntry ["top", "c", "f"],
          .removeEv ["top", "c.zip"]], none⟩ := by
  simp only [extract_zip_file_recursive, h]
  simp only [entriesLoop, extract, entryName, entryFile, List.map_cons, List.map_nil]
  rw [schedLoopF_noop_plain _ _ _ _ _
    (by intro nm hnm; simp only [List.mem_singleton] at hnm; subst hnm; decide)]
  simp

/-- The submit loop over the `mixedEntries` name list when the nested
container is on disk: exactly one submission, whose child run extracts the
inner file and deletes the container. -/
theorem schedLoopF_mixed_hit (i j : Nat) (disk : Disk)
    (h : lookupD disk ["top", "c.zip"] = some (DFile.zipF [.plain "f"])) :
    schedLoopF (fun ip cto dd dk => extract_zip_file_recursive 1 2 ip cto dd dk)
        ["top"] 0 1 (List.replicate i "p" ++ "c.zip" :: List.replicate j "q") disk
      = ⟨removeD (writeD disk ["top", "c", "f"] DFile.plainF) ["top", "c.zip"],
         [.sched ["top", "c.zip"] 1, .enter ["top", "c.zip"] 2,
          .extractEntry ["top", "c", "f"], .removeEv ["top", "c.zip"]],
         [], none⟩ := by
  rw [schedLoopF_skip _ _ _ _ "p" (by decide)]
  have hz : is_zipfile disk (["top"] ++ ["c.zip"]) = true := by
    simp [is_zipfile, h]
  have hst : stem "c.zip" = "c" := by decide
  have hend : pyEndsWith "c.zip" ".zip" = true := by decide
  simp only [schedLoopF, hend, Bool.true_and, hz, if_true, hst]
  rw [if_pos (by decide : (0 : Int) ≤ 1)]
  have h01 : (0 : Int) + 1 = 1 := by decide
  simp only [h01, List.singleton_append]
  rw [childRun disk h]
  rw [schedLoopF_noop_plain _ _ _ _ _
    (by intro nm hnm; rw [List.eq_of_mem_replicate hnm]; decide)]
  simp

/-- One-step unfolding of `extract_zip_file_recursive` on a disk whose
zip file is present and valid. -/
theorem ezfr_step (maxD : Int) (n : Nat) (zp eT : FPath) (dp : Int) (disk : Disk)
    (entries : List ZEntry) (h : lookupD disk zp = some (.zipF entries)) :
    extract_zip_file_recursive maxD (n + 1) zp eT dp disk
      = (let r := entriesLoop
            (fun ip cto dd dk => extract_zip_file_recursive maxD n ip cto dd dk)
            (List.map entryName entries) eT (dp + 1) maxD entries disk
         match r.err with
         | some e => ⟨r.disk, Ev.enter zp (dp + 1) :: r.trace, some e⟩
         | none =>
           if 1 ≤ dp + 1 then
             ⟨removeD r.disk zp, Ev.enter zp (dp + 1) :: (r.trace ++ [Ev.removeEv zp]), none⟩
           else
             ⟨r.disk, Ev.enter zp (dp + 1) :: r.trace, none⟩) := by
  rw [extract_zip_file_recursive, h]

/-- The complete trace of a run over `mixedEntries i j`: each plain entry
is extracted once, the nested container is submitted exactly once, its
inner file extracted, the container deleted, and nothing is logged. -/
theorem runMixed_spec (i j : Nat) :
    ∃ dk, runMixed i j = ⟨dk,
      Ev.enter ["top.zip"] 0 ::
        (List.replicate i (Ev.extractEntry ["top", "p"]) ++
          ([Ev.extractEntry ["top", "c.zip"], Ev.sched ["top", "c.zip"] 1,
            Ev.enter ["top", "c.zip"] 2, Ev.extractEntry ["top", "c", "f"],
            Ev.removeEv ["top", "c.zip"]] ++
           List.replicate j (Ev.extractEntry ["top", "q"]))), none⟩ := by
  have hlk : lookupD (mixedDisk i j) ["top.zip"] = some (.zipF (mixedEntries i j)) := by
    simp [mixedDisk, lookupD]
  have hnames : List.map entryName (mixedEntries i j)
      = List.replicate i "p" ++ "c.zip" :: List.replicate j "q" := by
    simp [mixedEntries, entryName]
  have hsk : ∀ dk, is_zipfile dk ["top", "c.zip"] = false →
      schedLoopF (fun ip cto dd dk' => extract_zip_file_recursive 1 2 ip cto dd dk')
        ["top"] 0 1 (List.replicate i "p" ++ "c.zip" :: List.replicate j "q") dk
      = ⟨dk, [], [], none⟩ :=
    fun dk hz => schedLoopF_noop_mixed _ _ _ _ i j dk hz
  have hz0 : is_zipfile (mixedDisk i j) ["top", "c.zip"] = false := by
    simp [is_zipfile, mixedDisk, lookupD]
  obtain ⟨dk1, hdk1, hz1⟩ := entriesLoop_replicate_plain
    (fun ip cto dd dk' => extract_zip_file_recursive 1 2 ip cto dd dk')
    (List.replicate i "p" ++ "c.zip" :: List.replicate j "q")
    ["top"] 0 1 "p" ["top", "c.zip"] hsk i (mixedDisk i j) hz0
  have hlk1 : lookupD
      (writeD dk1 (["top"] ++ ["c.zip"]) (DFile.zipF [ZEntry.plain "f"]))
      ["top", "c.zip"] = some (DFile.zipF [ZEntry.plain "f"]) :=
    lookupD_writeD_self _ _ _
  have hext : extract
      (fun ip cto dd dk' => extract_zip_file_recursive 1 2 ip cto dd dk')
      (List.replicate i "p" ++ "c.zip" :: List.replicate j "q")
      ["top"] 0 1 (.zipE "c.zip" [.plain "f"]) dk1
      = ⟨removeD (writeD (writeD dk1 ["top", "c.zip"] (DFile.zipF [ZEntry.plain "f"]))
            ["top", "c", "f"] DFile.plainF) ["top", "c.zip"],
         [Ev.extractEntry ["top", "c.zip"], Ev.sched ["top", "c.zip"] 1,
          Ev.enter ["top", "c.zip"] 2, Ev.extractEntry ["top", "c", "f"],
          Ev.removeEv ["top", "c.zip"]], none⟩ := by
    simp only [extract, entryName, entryFile]
    rw [schedLoopF_mixed_hit i j _ hlk1]
    simp
  obtain ⟨dk4, hdk4, hz4⟩ := entriesLoop_replicate_plain
    (fun ip cto dd dk' => extract_zip_file_recursive 1 2 ip cto dd dk')
    (List.replicate i "p" ++ "c.zip" :: List.replicate j "q")
    ["top"] 0 1 "q" ["top", "c.zip"] hsk j
    (removeD (writeD (writeD dk1 ["top", "c.zip"] (DFile.zipF [ZEntry.plain "f"]))
      ["top", "c", "f"] DFile.plainF) ["top", "c.zip"])
    (is_zipfile_remove_self _ _)
  have hbs : entriesLoop
      (fun ip cto dd dk' => extract_zip_file_recursive 1 2 ip cto dd dk')
      (List.replicate i "p" ++ "c.zip" :: List.replicate j "q")
      ["top"] 0 1 (.zipE "c.zip" [.plain "f"] :: List.replicate j (.plain "q")) dk1
      = ⟨dk4,
         [Ev.extractEntry ["top", "c.zip"], Ev.sched ["top", "c.zip"] 1,
          Ev.enter ["top", "c.zip"] 2, Ev.extractEntry ["top", "c", "f"],
          Ev.removeEv ["top", "c.zip"]] ++
           List.replicate j (Ev.extractEntry (["top"] ++ ["q"])), none⟩ := by
    simp only [entriesLoop, hext]
    simp only [hdk4]
  refine ⟨dk4, ?_⟩
  rw [show runMixed i j
      = extract_zip_file_recursive 1 3 ["top.zip"] ["top"] (-1) (mixedDisk i j) from rfl]
  rw [ezfr_step 1 2 ["top.zip"] ["top"] (-1) (mixedDisk i j) (mixedEntries i j) hlk]
  simp only [hnames, show ((-1 : Int) + 1) = 0 by decide]
  rw [show mixedEntries i j = List.replicate i (ZEntry.plain "p") ++
      (ZEntry.zipE "c.zip" [ZEntry.plain "f"] :: List.replicate j (ZEntry.plain "q"))
    from rfl]
  rw [entriesLoop_append_ok
    (fun ip cto dd dk => extract_zip_file_recursive 1 2 ip cto dd dk)
    (List.replicate i "p" ++ "c.zip" :: List.replicate j "q")
    ["top"] 0 1 (List.replicate i (.plain "p")) _ (mixedDisk i j) dk1 _ hdk1]
  rw [hbs]
  simp

/-- `countP` over a replicated element the predicate rejects is zero. -/
theorem countP_replicate_false (p : Ev → Bool) (a : Ev) (h : p a = false) :
    ∀ n, List.countP p (List.replicate n a) = 0 := by
  intro n
  induction n with
  | zero => rfl
  | succ k ih => rw [List.replicate_succ, List.countP_cons, ih, h]; rfl

/-- `count` over a replicate of a different element is zero. -/
theorem count_replicate_ne (a b : Ev) (h : a ≠ b) :
    ∀ n, List.count a (List.replicate n b) = 0 := by
  intro n
  induction n with
  | zero => rfl
  | succ k ih =>
    rw [List.replicate_succ, List.count_cons, ih]
    simp [Ne.symm h]

/-- Claim C10 (amended): for an archive of `i + 1 + j` entries containing
one nested container, the nested container is scheduled for recursive
extraction exactly once — not once per entry: the `is_zipfile` probe fails
both before the container's entry is extracted and after its recursive
extraction deletes it — the run completes without error and no
file-not-found error is ever caught or logged. -/
theorem C10_sched_once (i j : Nat) :
    (runMixed i j).err = none ∧
    (runMixed i j).trace.count (Ev.sched ["top", "c.zip"] 1) = 1 ∧
    (runMixed i j).trace.countP isLogged = 0 := by
  obtain ⟨dk, hspec⟩ := runMixed_spec i j
  rw [hspec]
  refine ⟨rfl, ?_, ?_⟩
  · simp only [List.count_cons, List.count_append,
      count_replicate_ne (Ev.sched ["top", "c.zip"] 1)
        (Ev.extractEntry ["top", "p"]) (by decide) i,
      count_replicate_ne (Ev.sched ["top", "c.zip"] 1)
        (Ev.extractEntry ["top", "q"]) (by decide) j]
    decide
  · simp only [List.countP_cons, List.countP_append,
      countP_replicate_false isLogged (Ev.extractEntry ["top", "p"]) (by decide) i,
      countP_replicate_false isLogged (Ev.extractEntry ["top", "q"]) (by decide) j]
    decide

/-- Claim C10 (counterexample): with a 2-entry archive (`N = 2`) holding one
nested container, the recursive extraction is scheduled once, not `N = 2`
times, and no caught-and-logged error (in particular no file-not-found
error) occurs. -/
theorem C10_counterexample :
    (mixedEntries 1 0).length = 2 ∧
    (runMixed 1 0).trace.count (Ev.sched ["top", "c.zip"] 1) = 1 ∧
    (runMixed 1 0).trace.countP isLogged = 0 := by
  decide

end Cap3D
